import Mathlib

/-!
Shallow embedding of the HoshinoAlgorithm container library
(`src/ds/bheap.rs` and `src/ds/binary_tree.rs`) and proofs of the
specification claims about it.

The heap's backing `Vec<T>` is modelled as a `List T`; `usize` indices are
`Nat`; fallible operations returning `Result<O, Error>` are modelled with
`Except Error O` and `Option` models Rust's `Option`.  A `usize`
subtraction that can underflow (which panics in debug builds) is modelled
by an `Option Nat` result, `none` standing for the arithmetic underflow.
-/

set_option autoImplicit false

universe u

/-- Error kinds of `src/ds/bheap.rs` (`enum ErrorKind`). -/
inductive ErrorKind : Type
  | ZeroIndex : ErrorKind
  | NoParent : ErrorKind
  | NoChildren : ErrorKind
  | OutOfBounds : Nat → ErrorKind
  | Custom : String → ErrorKind
deriving DecidableEq

/-- Model of `struct Error { kind: ErrorKind }` of `src/ds/bheap.rs`. -/
structure Error : Type where
  kind : ErrorKind
deriving DecidableEq

/-- Model of `BinaryHeap<T, Cmp>`: backing vector plus the injected comparator. -/
structure BinaryHeap (T : Type u) : Type u where
  inner : List T
  compare : T → T → Ordering

/-- Model of `Vec::swap`: exchange the elements at positions `a` and
`b`.  On an out-of-range position the Rust call would panic; the model
returns the list unchanged there (all call sites are pre-validated). -/
def swapL {T : Type u} (l : List T) (a b : Nat) : List T :=
  match l.get? a, l.get? b with
  | some x, some y => (l.set a y).set b x
  | _, _ => l

namespace BinaryHeap

variable {T : Type u}

/-- Model of `BinaryHeap::swap_unchecked` (wraps `Vec::swap`). -/
def swap_unchecked (h : BinaryHeap T) (a b : Nat) : BinaryHeap T :=
  { h with inner := swapL h.inner a b }

/-- Model of `BinaryHeap::check`: index 0 is the sentinel (`ZeroIndex`); an index
`≥ inner.len()` is `OutOfBounds`; otherwise the index is returned. -/
def check (h : BinaryHeap T) (index : Nat) : Except Error Nat :=
  if index = 0 then .error ⟨.ZeroIndex⟩
  else if index < h.inner.length then .ok index
  else .error ⟨.OutOfBounds index⟩

/-- Model of `BinaryHeap::swap`: validate both indices with `check`, then swap. -/
def swap (h : BinaryHeap T) (a b : Nat) : Except Error (BinaryHeap T) :=
  match h.check a with
  | .error e => .error e
  | .ok a' =>
    match h.check b with
    | .error e => .error e
    | .ok b' => .ok (h.swap_unchecked a' b')

/-- Model of `BinaryHeap::get`: `check` leniently (`.ok()?` turns an error into
`None`), then read the backing vector. -/
def get (h : BinaryHeap T) (index : Nat) : Option T :=
  match h.check index with
  | .error _ => none
  | .ok _ => h.inner.get? index

/-- Model of `BinaryHeap::from_source_unchecked`. -/
def from_source_unchecked (source : List T) (compare : T → T → Ordering) :
    BinaryHeap T :=
  { inner := source, compare := compare }

/-- Model of `BinaryHeap::from_source`: rejects an empty source. -/
def from_source (source : List T) (compare : T → T → Ordering) :
    Option (BinaryHeap T) :=
  if source.isEmpty then none else some (from_source_unchecked source compare)

/-- Model of `BinaryHeap::new`: a one-element vector holding zeroed memory as the
sentinel.  The zeroed bit pattern is modelled by the `sentinel` argument
(for `u32` it is `0`). -/
def new (sentinel : T) (compare : T → T → Ordering) : BinaryHeap T :=
  { inner := [sentinel], compare := compare }

/-- Model of `BinaryHeap::with_capacity`: `Vec::with_capacity(capacity)` is an
EMPTY vector — unlike `new`, no sentinel element is created. -/
def with_capacity (capacity : Nat) (compare : T → T → Ordering) :
    BinaryHeap T :=
  { inner := [], compare := compare }

/-- Model of `BinaryHeap::parent`: `check`, then the root has no parent and any
other valid index maps to `idx / 2`. -/
def parent (h : BinaryHeap T) (idx : Nat) : Except Error Nat :=
  match h.check idx with
  | .error e => .error e
  | .ok _ => if idx = 1 then .error ⟨.NoParent⟩ else .ok (idx / 2)

/-- Model of `BinaryHeap::children`: `check` the index, then `check` `2*idx` and
`2*idx+1` leniently. -/
def children (h : BinaryHeap T) (idx : Nat) :
    Except Error (Option Nat × Option Nat) :=
  match h.check idx with
  | .error e => .error e
  | .ok _ => .ok ((h.check (idx * 2)).toOption, (h.check (idx * 2 + 1)).toOption)

/-- Model of `BinaryHeap::end`: `self.inner.len() - 1` on `usize`.  When the
backing vector is empty this subtraction underflows, which panics in a
debug build; the underflow is modelled as `none`. -/
def endIdx (h : BinaryHeap T) : Option Nat :=
  if h.inner.length = 0 then none else some (h.inner.length - 1)

/-- Model of `BinaryHeap::float`: validate `target`; if it has a parent and
outranks it (`compare` returns `Greater`), swap them and continue from the
parent's position.  `self[i]` (the `Index` impl, `get(i).unwrap()`) is
modelled by matching on `get`; the `_, _` fallback is unreachable because
both indices have been validated. -/
def float (h : BinaryHeap T) (target : Nat) : Except Error (BinaryHeap T) :=
  match hc : h.check target with
  | .error e => .error e
  | .ok t =>
    match hp : h.parent t with
    | .error _ => .ok h
    | .ok p =>
      match h.get t, h.get p with
      | some x, some y =>
        if h.compare x y = .gt then
          float (h.swap_unchecked t p) p
        else
          .ok h
      | _, _ => .ok h
termination_by target
decreasing_by
  simp only [check] at hc
  split at hc
  · exact absurd hc (by simp)
  · split at hc
    · injection hc with hc'
      subst hc'
      simp only [parent, check] at hp
      split at hp
      all_goals try (split at hp)
      all_goals simp at hp
      all_goals omega
    · exact absurd hc (by simp)

/-- Model of `BinaryHeap::push`: append, then float the new last element
(`self.end()` after the append); the `Result` of `float` is discarded, so
on a failed entry `check` the heap is left as appended. -/
def push (h : BinaryHeap T) (v : T) : BinaryHeap T :=
  let h' : BinaryHeap T := { h with inner := h.inner ++ [v] }
  match h'.float (h'.inner.length - 1) with
  | .ok h'' => h''
  | .error _ => h'

/-- A sequence of `push` calls, left to right. -/
def pushAll (h : BinaryHeap T) (vs : List T) : BinaryHeap T :=
  vs.foldl (fun acc v => acc.push v) h

end BinaryHeap

/-- Model of `enum BinaryTreeNode<T>` of `src/ds/binary_tree.rs`: a `Node` holds a
value and exactly two owned children; `Leaf` is empty. -/
inductive BinaryTreeNode (T : Type u) : Type u
  | Node : T → BinaryTreeNode T → BinaryTreeNode T → BinaryTreeNode T
  | Leaf : BinaryTreeNode T

namespace BinaryTreeNode

variable {T : Type u}

/-- Model of `BinaryTreeNode::new(value)`: a `Node` with two `Leaf` children. -/
def mk1 (value : T) : BinaryTreeNode T :=
  .Node value .Leaf .Leaf

/-- Model of `BinaryTreeNode::value`. -/
def value : BinaryTreeNode T → Option T
  | .Node v _ _ => some v
  | .Leaf => none

/-- Model of `BinaryTreeNode::left`: the left child, or the `Leaf` itself. -/
def left : BinaryTreeNode T → BinaryTreeNode T
  | .Node _ l _ => l
  | .Leaf => .Leaf

/-- Model of `BinaryTreeNode::right`: the right child, or the `Leaf` itself. -/
def right : BinaryTreeNode T → BinaryTreeNode T
  | .Node _ _ r => r
  | .Leaf => .Leaf

/-- Number of constructors of the node tree (measure for the traversal). -/
def nodeSize : BinaryTreeNode T → Nat
  | .Leaf => 1
  | .Node _ l r => 1 + nodeSize l + nodeSize r

/-- The recursive pre-order traversal the specification describes the
iterative cursor to be equivalent to: for each `Node`, its own value,
then the left subtree, then the right subtree. -/
def preorder : BinaryTreeNode T → List T
  | .Leaf => []
  | .Node v l r => v :: (preorder l ++ preorder r)

end BinaryTreeNode

/-- Model of `struct DfsIter`: explicit stack of (node, visitation-state) pairs;
the list head is the stack top.  The `u8` state is modelled as `Nat` (the
code only ever stores 0..3). -/
structure DfsIter (T : Type u) : Type u where
  stack : List (BinaryTreeNode T × Nat)

/-- Termination weight of one stack entry, chosen so that every recursive
case of `DfsIter::next` strictly decreases the summed weight. -/
def entryWt {T : Type u} : BinaryTreeNode T × Nat → Nat
  | (.Leaf, _) => 1
  | (.Node _ l r, 0) => 2 + 3 * l.nodeSize + 3 * r.nodeSize
  | (.Node _ l r, 1) => 1 + 3 * l.nodeSize + 3 * r.nodeSize
  | (.Node _ _ r, 2) => 1 + 3 * r.nodeSize
  | (.Node _ _ _, _) => 1

/-- Summed termination weight of a stack. -/
def stackWt {T : Type u} (s : List (BinaryTreeNode T × Nat)) : Nat :=
  (s.map entryWt).sum

namespace DfsIter

variable {T : Type u}

/-- Model of `DfsIter::next` (`impl Iterator`): pop the stack top; a `Leaf` is
discarded; state 0 yields the node's value and re-pushes it in state 1;
state 1 re-pushes in state 2 and pushes the left child in state 0;
state 2 re-pushes in state 3 and pushes the right child in state 0; any
other state is discarded.  Pure model: the advanced iterator is returned
alongside the yielded value. -/
def next : DfsIter T → Option (T × DfsIter T)
  | ⟨[]⟩ => none
  | ⟨(.Leaf, _) :: rest⟩ => next ⟨rest⟩
  | ⟨(.Node v l r, 0) :: rest⟩ => some (v, ⟨(.Node v l r, 1) :: rest⟩)
  | ⟨(.Node v l r, 1) :: rest⟩ =>
    next ⟨((BinaryTreeNode.Node v l r).left, 0) :: (.Node v l r, 2) :: rest⟩
  | ⟨(.Node v l r, 2) :: rest⟩ =>
    next ⟨((BinaryTreeNode.Node v l r).right, 0) :: (.Node v l r, 3) :: rest⟩
  | ⟨(.Node _ _ _, _ + 3) :: rest⟩ => next ⟨rest⟩
termination_by it => stackWt it.stack
decreasing_by
  · simp [stackWt, entryWt]
  · simp [stackWt, entryWt, BinaryTreeNode.left]
    cases l <;> simp [entryWt, BinaryTreeNode.nodeSize] <;> omega
  · simp [stackWt, entryWt, BinaryTreeNode.right]
    cases r <;> simp [entryWt, BinaryTreeNode.nodeSize] <;> omega
  · simp [stackWt, entryWt]

end DfsIter

namespace DfsIter

variable {T : Type u}

/-- Materialization of the cursor: the finite sequence of values obtained
by advancing `next` until it returns `none`. -/
def emit (it : DfsIter T) : List T :=
  match h : next it with
  | none => []
  | some (v, it') => v :: emit it'
termination_by stackWt it.stack
decreasing_by
  have key : ∀ (s : DfsIter T) (w : T) (s' : DfsIter T),
      next s = some (w, s') → stackWt s'.stack < stackWt s.stack := by
    intro s
    induction s using next.induct with
    | case1 =>
      intro w s' hs
      simp [next] at hs
    | case2 st rest ih =>
      intro w s' hs
      simp only [next] at hs
      have := ih w s' hs
      simp only [stackWt, List.map_cons, List.sum_cons, entryWt] at *
      omega
    | case3 v0 l r rest =>
      intro w s' hs
      simp only [next, Option.some.injEq, Prod.mk.injEq] at hs
      obtain ⟨rfl, rfl⟩ := hs
      simp [stackWt, entryWt]
    | case4 v0 l r rest ih =>
      intro w s' hs
      simp only [next] at hs
      have := ih w s' hs
      simp only [stackWt, List.map_cons, List.sum_cons, entryWt,
        BinaryTreeNode.left] at *
      cases l <;> simp [entryWt, BinaryTreeNode.nodeSize] at * <;> omega
    | case5 v0 l r rest ih =>
      intro w s' hs
      simp only [next] at hs
      have := ih w s' hs
      simp only [stackWt, List.map_cons, List.sum_cons, entryWt,
        BinaryTreeNode.right] at *
      cases r <;> simp [entryWt, BinaryTreeNode.nodeSize] at * <;> omega
    | case6 v0 l r st rest ih =>
      intro w s' hs
      simp only [next] at hs
      have := ih w s' hs
      simp only [stackWt, List.map_cons, List.sum_cons, entryWt] at *
      omega
  exact key it v it' h

end DfsIter

/-- Model of `struct BinaryTree<T>`: wraps a single root node. -/
structure BinaryTree (T : Type u) : Type u where
  root : BinaryTreeNode T

namespace BinaryTree

variable {T : Type u}

/-- Model of `BinaryTree::new(root)`. -/
def mk1 (root : T) : BinaryTree T :=
  { root := BinaryTreeNode.mk1 root }

/-- Model of `BinaryTree::dfs`: a fresh cursor whose stack holds the root in
state 0. -/
def dfs (t : BinaryTree T) : DfsIter T :=
  { stack := [(t.root, 0)] }

end BinaryTree

/-- The specification's requirement on the injected comparator: it is
consistent with a total order, `Greater` meaning strictly higher
priority. -/
def consistentWithTotalOrder {T : Type u} (cmp : T → T → Ordering) : Prop :=
  ∃ le : T → T → Prop,
    (∀ a b, le a b ∨ le b a) ∧
    (∀ a b c, le a b → le b c → le a c) ∧
    (∀ a b, cmp a b = .gt ↔ (le b a ∧ ¬ le a b))

/-- The max-comparator on integers used by the examples (`u32::cmp` in the
source's tests; modelled on `Int`). -/
def maxCmp (a b : Int) : Ordering :=
  if a < b then .lt else if a = b then .eq else .gt

/-- The heap invariant of the specification: for every logical index
`i > 1` within bounds, the element at `i` never outranks the element at
`parent(i) = i / 2`. -/
def heapProp {T : Type u} (cmp : T → T → Ordering) (l : List T) : Prop :=
  ∀ i x y, 1 < i → l.get? i = some x → l.get? (i / 2) = some y →
    cmp x y ≠ .gt

instance heapProp.decidable {T : Type u} (cmp : T → T → Ordering)
    (l : List T) : Decidable (heapProp cmp l) :=
  decidable_of_iff
    (∀ i : Fin l.length, 1 < i.val →
      cmp (l.get i)
        (l.get ⟨i.val / 2, Nat.lt_of_le_of_lt (Nat.div_le_self _ _) i.isLt⟩)
        ≠ .gt) <| by
    constructor
    · intro hb i x y h1 hx hy
      rw [List.get?_eq_some] at hx hy
      obtain ⟨hi, hgx⟩ := hx
      obtain ⟨hi2, hgy⟩ := hy
      have := hb ⟨i, hi⟩ h1
      rw [hgx] at this
      rw [show (l.get ⟨i / 2, Nat.lt_of_le_of_lt (Nat.div_le_self _ _) hi⟩)
            = y from hgy ▸ rfl] at this
      exact this
    · intro hp i h1
      exact hp i.val (l.get i) _ h1 (List.get?_eq_get i.isLt)
        (List.get?_eq_get _)

/-- The sift-up invariant: the heap property holds everywhere except
possibly between `j` and its parent, and in addition the children of `j`
do not outrank `j`'s parent. -/
def upHeapExcept {T : Type u} (cmp : T → T → Ordering) (l : List T)
    (j : Nat) : Prop :=
  (∀ i x y, 1 < i → i ≠ j → l.get? i = some x → l.get? (i / 2) = some y →
    cmp x y ≠ .gt)
  ∧ (∀ c x y, 1 < j → c / 2 = j → l.get? c = some x →
      l.get? (j / 2) = some y → cmp x y ≠ .gt)

/-- The sift-down invariant: the heap property holds for every pair whose
child is not a child of `i`, and in addition the children of `i` do not
outrank `i`'s parent. -/
def downHeapExcept {T : Type u} (cmp : T → T → Ordering) (l : List T)
    (i : Nat) : Prop :=
  (∀ j x y, 1 < j → j / 2 ≠ i → l.get? j = some x → l.get? (j / 2) = some y →
    cmp x y ≠ .gt)
  ∧ (∀ j x y, 1 < i → j / 2 = i → l.get? j = some x →
      l.get? (i / 2) = some y → cmp x y ≠ .gt)

/-- Modelled from the spec: the higher-priority child of `i` — "the child
for which `compare(child, other_child)` is `Greater`, or there is only one
child".  The source's `sink` body is `todo!()`, so this is taken from
§4.1 of the specification. -/
def maxChild {T : Type u} (cmp : T → T → Ordering) (l : List T)
    (i : Nat) : Nat :=
  if 2 * i + 1 < l.length then
    match l.get? (2 * i), l.get? (2 * i + 1) with
    | some lv, some rv => if cmp lv rv = .gt then 2 * i else 2 * i + 1
    | _, _ => 2 * i
  else 2 * i

/-- Modelled from the spec: the sink (sift-down) repair step, which the
source leaves unimplemented (`BinaryHeap::sink` is `todo!()`).  Per §4.1:
at each step compare the element against its higher-priority child; if
the element does not outrank that child, swap and continue from the
child's position; stop when the element outranks that child or has no
child in bounds. -/
def sinkSpec {T : Type u} (cmp : T → T → Ordering) (l : List T)
    (i : Nat) : List T :=
  if hi : 1 ≤ i ∧ 2 * i < l.length then
    match l.get? i, l.get? (maxChild cmp l i) with
    | some x, some z =>
      if cmp x z = .gt then l
      else sinkSpec cmp (swapL l i (maxChild cmp l i)) (maxChild cmp l i)
    | _, _ => l
  else l
termination_by l.length - i
decreasing_by
  have hlen : ∀ (a b : Nat), (swapL l a b).length = l.length := by
    intro a b
    unfold swapL
    split <;> simp
  rw [hlen]
  first
    | omega
    | (split <;> omega)
    | (unfold maxChild
       repeat' split
       all_goals omega)

/-- Modelled from the spec: extract-top removal (§4.1), absent from the
source.  Remove and return the root element (logical index 1), replace it
with the last element, shrink the sequence by one, then restore the heap
property by sinking the replacement downward; a heap with no real
elements fails with the empty-heap error (`Custom`, the spec's escape
hatch for caller-defined failures such as empty-heap removal). -/
def BinaryHeap.extract_top {T : Type u} (h : BinaryHeap T) :
    Except Error (T × BinaryHeap T) :=
  match h.inner.get? 1, h.inner.getLast? with
  | some root, some last =>
    .ok (root,
      { h with inner := sinkSpec h.compare ((h.inner.set 1 last).dropLast) 1 })
  | _, _ => .error ⟨.Custom "remove from empty heap"⟩

/-!
Theorems.  First, characterizations of the basic operations; then the
sift-up and sift-down invariant arguments; then the claim theorems.
-/

namespace BinaryHeap

variable {T : Type u}

theorem check_zero (h : BinaryHeap T) : h.check 0 = .error ⟨.ZeroIndex⟩ := rfl

theorem check_ok (h : BinaryHeap T) (i : Nat) (h0 : i ≠ 0)
    (hlt : i < h.inner.length) : h.check i = .ok i := by
  unfold check
  rw [if_neg h0, if_pos hlt]

theorem check_oob (h : BinaryHeap T) (i : Nat) (h0 : i ≠ 0)
    (hge : h.inner.length ≤ i) : h.check i = .error ⟨.OutOfBounds i⟩ := by
  unfold check
  rw [if_neg h0, if_neg (by omega)]

theorem check_ok_iff (h : BinaryHeap T) (i j : Nat) :
    h.check i = .ok j ↔ j = i ∧ i ≠ 0 ∧ i < h.inner.length := by
  constructor
  · intro hc
    unfold check at hc
    split at hc
    · exact absurd hc (by simp)
    · split at hc
      · injection hc with hc'
        exact ⟨hc'.symm, by assumption, by assumption⟩
      · exact absurd hc (by simp)
  · rintro ⟨rfl, h0, hlt⟩
    exact check_ok h _ h0 hlt

theorem parent_ok (h : BinaryHeap T) (i : Nat) (h2 : 2 ≤ i)
    (hlt : i < h.inner.length) : h.parent i = .ok (i / 2) := by
  unfold parent
  rw [check_ok h i (by omega) hlt]
  simp only [Except.ok.injEq]
  rw [if_neg (by omega)]

theorem parent_one (h : BinaryHeap T) (hlt : 1 < h.inner.length) :
    h.parent 1 = .error ⟨.NoParent⟩ := by
  unfold parent
  rw [check_ok h 1 (by omega) hlt]
  simp

theorem parent_err (h : BinaryHeap T) (i : Nat) (e : Error)
    (hc : h.check i = .error e) : h.parent i = .error e := by
  unfold parent
  rw [hc]

theorem parent_ok_iff (h : BinaryHeap T) (i p : Nat) :
    h.parent i = .ok p ↔ p = i / 2 ∧ 2 ≤ i ∧ i < h.inner.length := by
  constructor
  · intro hp
    unfold parent at hp
    split at hp
    · exact absurd hp (by simp)
    · rename_i j hc
      rw [check_ok_iff] at hc
      obtain ⟨rfl, h0, hlt⟩ := hc
      split at hp
      · exact absurd hp (by simp)
      · injection hp with hp'
        refine ⟨hp'.symm, by omega, hlt⟩
  · rintro ⟨rfl, h2, hlt⟩
    exact parent_ok h _ h2 hlt

theorem get_valid (h : BinaryHeap T) (i : Nat) (h0 : i ≠ 0)
    (hlt : i < h.inner.length) : h.get i = h.inner.get? i := by
  unfold get
  rw [check_ok h i h0 hlt]

theorem get_invalid (h : BinaryHeap T) (i : Nat)
    (hbad : i = 0 ∨ h.inner.length ≤ i) : h.get i = none := by
  unfold get
  rcases hbad with rfl | hge
  · rw [check_zero]
  · rcases Nat.eq_zero_or_pos i with rfl | hpos
    · rw [check_zero]
    · rw [check_oob h i (by omega) hge]

theorem float_entry_err (h : BinaryHeap T) (t : Nat) (e : Error)
    (hc : h.check t = .error e) : h.float t = .error e := by
  rw [float.eq_def]
  split
  · rename_i e' hc'
    rw [hc] at hc'
    injection hc' with h'
    rw [h']
  · rename_i t' hc'
    rw [hc] at hc'
    exact absurd hc' (by simp)

theorem float_root (h : BinaryHeap T) (hlt : 1 < h.inner.length) :
    h.float 1 = .ok h := by
  rw [float.eq_def]
  split
  · rename_i e hc
    rw [check_ok h 1 (by omega) hlt] at hc
    exact absurd hc (by simp)
  · rename_i t hc
    rw [check_ok h 1 (by omega) hlt] at hc
    injection hc with hc'
    subst hc'
    split
    · rfl
    · rename_i p hp
      rw [parent_one h hlt] at hp
      exact absurd hp (by simp)

theorem float_stop (h : BinaryHeap T) (t : Nat) (x y : T) (h2 : 2 ≤ t)
    (hlt : t < h.inner.length) (hx : h.inner.get? t = some x)
    (hy : h.inner.get? (t / 2) = some y) (hcmp : h.compare x y ≠ .gt) :
    h.float t = .ok h := by
  rw [float.eq_def]
  split
  · rename_i e hc
    rw [check_ok h t (by omega) hlt] at hc
    exact absurd hc (by simp)
  · rename_i t' hc
    rw [check_ok h t (by omega) hlt] at hc
    injection hc with hc'
    subst hc'
    split
    · rfl
    · rename_i p hp
      rw [parent_ok h t h2 hlt] at hp
      injection hp with hp'
      subst hp'
      rw [get_valid h t (by omega) hlt,
        get_valid h (t / 2) (by omega) (by omega), hx, hy]
      simp [hcmp]

theorem float_swap (h : BinaryHeap T) (t : Nat) (x y : T) (h2 : 2 ≤ t)
    (hlt : t < h.inner.length) (hx : h.inner.get? t = some x)
    (hy : h.inner.get? (t / 2) = some y) (hcmp : h.compare x y = .gt) :
    h.float t = (h.swap_unchecked t (t / 2)).float (t / 2) := by
  rw [float.eq_def]
  split
  · rename_i e hc
    rw [check_ok h t (by omega) hlt] at hc
    exact absurd hc (by simp)
  · rename_i t' hc
    rw [check_ok h t (by omega) hlt] at hc
    injection hc with hc'
    subst hc'
    split
    · rename_i hp
      rw [parent_ok h t h2 hlt] at hp
      exact absurd hp (by simp)
    · rename_i p hp
      rw [parent_ok h t h2 hlt] at hp
      injection hp with hp'
      subst hp'
      rw [get_valid h t (by omega) hlt,
        get_valid h (t / 2) (by omega) (by omega), hx, hy]
      simp [hcmp]

end BinaryHeap

theorem swapL_length {T : Type u} (l : List T) (a b : Nat) :
    (swapL l a b).length = l.length := by
  unfold swapL
  split <;> simp

theorem swapL_get? {T : Type u} {l : List T} {i j : Nat} {x y : T}
    (hi : l.get? i = some x) (hj : l.get? j = some y) (k : Nat) :
    (swapL l i j).get? k =
      if k = j then some x else if k = i then some y else l.get? k := by
  unfold swapL
  rw [hi, hj]
  by_cases hkj : k = j
  · subst hkj
    rw [List.get?_set_eq]
    by_cases hik : i = k
    · subst hik
      rw [List.get?_set_eq, hi]
      rw [hi] at hj
      injection hj with hj'
      simp [hj']
    · rw [List.get?_set_ne _ _ hik, hj]
      simp
  · rw [List.get?_set_ne _ _ (Ne.symm hkj)]
    by_cases hki : k = i
    · subst hki
      rw [List.get?_set_eq, hi]
      simp [hkj]
    · rw [List.get?_set_ne _ _ (Ne.symm hki)]
      simp [hkj, hki]

theorem set_self_of_get? {T : Type u} {l : List T} {k : Nat} {y : T}
    (h : l.get? k = some y) : l.set k y = l := by
  apply List.ext_get?
  intro n
  rw [List.get?_set]
  split
  · rename_i hkn
    subst hkn
    rw [h]
    rfl
  · rfl

theorem perm_head_set {T : Type u} {tl : List T} {k : Nat} {y : T} (a : T)
    (h : tl.get? k = some y) : (y :: tl.set k a).Perm (a :: tl) := by
  obtain ⟨hk, -⟩ := List.get?_eq_some.mp h
  have h1 : tl.set k a = tl.take k ++ a :: tl.drop (k + 1) :=
    List.set_eq_take_cons_drop a hk
  have h2 : tl = tl.take k ++ y :: tl.drop (k + 1) := by
    conv_lhs => rw [← set_self_of_get? h]
    exact List.set_eq_take_cons_drop y hk
  rw [h1]
  conv_rhs => rw [h2]
  refine List.Perm.trans (List.Perm.cons y List.perm_middle) ?_
  refine List.Perm.trans (List.Perm.swap a y _) ?_
  exact List.Perm.cons a List.perm_middle.symm

theorem swapL_perm {T : Type u} (l : List T) (i j : Nat) :
    (swapL l i j).Perm l := by
  induction l generalizing i j with
  | nil => simp [swapL]
  | cons a tl ih =>
    unfold swapL
    split
    · rename_i x y hi hj
      rcases i with _ | m
      · rw [List.get?_cons_zero] at hi
        injection hi with hi'
        subst hi'
        rcases j with _ | k
        · rw [List.get?_cons_zero] at hj
          injection hj with hj'
          subst hj'
          simp
        · rw [List.get?_cons_succ] at hj
          simp only [List.set_cons_zero, List.set_cons_succ]
          exact perm_head_set a hj
      · rw [List.get?_cons_succ] at hi
        rcases j with _ | k
        · rw [List.get?_cons_zero] at hj
          injection hj with hj'
          subst hj'
          simp only [List.set_cons_succ, List.set_cons_zero]
          exact perm_head_set a hi
        · rw [List.get?_cons_succ] at hj
          simp only [List.set_cons_succ]
          refine List.Perm.cons a ?_
          have hperm := ih m k
          unfold swapL at hperm
          rw [hi, hj] at hperm
          exact hperm
    · exact List.Perm.refl _

theorem consistent_asymm {T : Type u} {cmp : T → T → Ordering}
    (hc : consistentWithTotalOrder cmp) {a b : T} (h : cmp a b = .gt) :
    cmp b a ≠ .gt := by
  obtain ⟨le, tot, tr, hch⟩ := hc
  rw [hch] at h
  intro hgt
  rw [hch] at hgt
  exact hgt.2 h.1

theorem consistent_trans {T : Type u} {cmp : T → T → Ordering}
    (hc : consistentWithTotalOrder cmp) {a b c : T} (hab : cmp a b ≠ .gt)
    (hbc : cmp b c ≠ .gt) : cmp a c ≠ .gt := by
  obtain ⟨le, tot, tr, hch⟩ := hc
  have hle : ∀ u v, cmp u v ≠ .gt → le u v := by
    intro u v huv
    rcases tot u v with hx | hx
    · exact hx
    · by_contra hno
      exact huv ((hch u v).mpr ⟨hx, hno⟩)
  have hac := tr a b c (hle _ _ hab) (hle _ _ hbc)
  intro hgt
  rw [hch] at hgt
  exact hgt.2 hac

theorem maxCmp_consistent : consistentWithTotalOrder maxCmp := by
  refine ⟨(· ≤ ·), fun a b => le_total a b, fun a b c => le_trans, ?_⟩
  intro a b
  unfold maxCmp
  split_ifs <;> simp <;> omega

theorem upHeapExcept_swap {T : Type u} {cmp : T → T → Ordering} {l : List T}
    {t : Nat} {x y : T} (hcons : consistentWithTotalOrder cmp)
    (h2 : 2 ≤ t) (hx : l.get? t = some x) (hy : l.get? (t / 2) = some y)
    (hgt : cmp x y = .gt) (hinv : upHeapExcept cmp l t) :
    upHeapExcept cmp (swapL l t (t / 2)) (t / 2) := by
  have G := swapL_get? hx hy
  constructor
  · intro i a b h1i hip hia hib
    rw [G i] at hia
    rw [G (i / 2)] at hib
    by_cases hit : i = t
    · subst hit
      rw [if_neg (by omega : ¬ i = i / 2), if_pos rfl] at hia
      rw [if_pos rfl] at hib
      injection hia with hia'
      injection hib with hib'
      subst hia'
      subst hib'
      exact consistent_asymm hcons hgt
    · rw [if_neg hip, if_neg hit] at hia
      by_cases hp2 : i / 2 = t / 2
      · rw [if_pos hp2] at hib
        injection hib with hib'
        subst hib'
        have h1 : cmp a y ≠ .gt := by
          apply hinv.1 i a y h1i hit hia
          rw [hp2]
          exact hy
        exact consistent_trans hcons h1 (consistent_asymm hcons hgt)
      · by_cases hp3 : i / 2 = t
        · rw [if_neg hp2, if_pos hp3] at hib
          injection hib with hib'
          subst hib'
          exact hinv.2 i a y (by omega) hp3 hia hy
        · rw [if_neg hp2, if_neg hp3] at hib
          exact hinv.1 i a b h1i hit hia hib
  · intro c a b h1p hcp hca hcb
    rw [G c] at hca
    rw [G (t / 2 / 2), if_neg (by omega : ¬ t / 2 / 2 = t / 2),
      if_neg (by omega : ¬ t / 2 / 2 = t)] at hcb
    by_cases hct : c = t
    · subst hct
      rw [if_neg (by omega : ¬ c = c / 2), if_pos rfl] at hca
      injection hca with hca'
      subst hca'
      exact hinv.1 (c / 2) y b h1p (by omega) hy hcb
    · have hcp' : ¬ c = t / 2 := by omega
      rw [if_neg hcp', if_neg hct] at hca
      have h1 : cmp a y ≠ .gt := by
        apply hinv.1 c a y (by omega) hct hca
        rw [hcp]
        exact hy
      have h3 : cmp y b ≠ .gt := hinv.1 (t / 2) y b h1p (by omega) hy hcb
      exact consistent_trans hcons h1 h3

theorem get?_exists_of_lt {T : Type u} {l : List T} {i : Nat}
    (hlt : i < l.length) : ∃ x, l.get? i = some x := by
  cases hx : l.get? i with
  | none =>
    rw [List.get?_eq_none] at hx
    omega
  | some x => exact ⟨x, rfl⟩

theorem float_ok_results {T : Type u} :
    ∀ (t : Nat) (h : BinaryHeap T), t ≠ 0 → t < h.inner.length →
      ∃ h', h.float t = .ok h' ∧ h'.inner.Perm h.inner ∧
        h'.inner.get? 0 = h.inner.get? 0 ∧ h'.compare = h.compare := by
  intro t
  induction t using Nat.strong_induction_on with
  | _ t ih =>
    intro h h0 hlt
    rcases Nat.lt_or_ge t 2 with h1 | h2
    · have ht1 : t = 1 := by omega
      subst ht1
      exact ⟨h, BinaryHeap.float_root h hlt, List.Perm.refl _, rfl, rfl⟩
    · obtain ⟨x, hx⟩ := get?_exists_of_lt hlt
      obtain ⟨y, hy⟩ := get?_exists_of_lt
        (show t / 2 < h.inner.length by omega)
      by_cases hgt : h.compare x y = .gt
      · rw [BinaryHeap.float_swap h t x y h2 hlt hx hy hgt]
        have hlen : (h.swap_unchecked t (t / 2)).inner.length
            = h.inner.length := swapL_length _ _ _
        obtain ⟨h', hfl, hperm, hzero, hcomp⟩ :=
          ih (t / 2) (by omega) (h.swap_unchecked t (t / 2)) (by omega)
            (by omega)
        refine ⟨h', hfl, ?_, ?_, ?_⟩
        · exact hperm.trans (swapL_perm _ _ _)
        · rw [hzero]
          show (swapL h.inner t (t / 2)).get? 0 = h.inner.get? 0
          rw [swapL_get? hx hy 0, if_neg (by omega), if_neg (by omega)]
        · exact hcomp
      · exact ⟨h, BinaryHeap.float_stop h t x y h2 hlt hx hy hgt,
          List.Perm.refl _, rfl, rfl⟩

theorem float_heapProp {T : Type u} :
    ∀ (t : Nat) (h : BinaryHeap T), consistentWithTotalOrder h.compare →
      t ≠ 0 → t < h.inner.length → upHeapExcept h.compare h.inner t →
      ∃ h', h.float t = .ok h' ∧ h'.compare = h.compare ∧
        heapProp h.compare h'.inner := by
  intro t
  induction t using Nat.strong_induction_on with
  | _ t ih =>
    intro h hcons h0 hlt hinv
    rcases Nat.lt_or_ge t 2 with h1 | h2
    · have ht1 : t = 1 := by omega
      subst ht1
      refine ⟨h, BinaryHeap.float_root h hlt, rfl, ?_⟩
      intro i a b h1i ha hb
      exact hinv.1 i a b h1i (by omega) ha hb
    · obtain ⟨x, hx⟩ := get?_exists_of_lt hlt
      obtain ⟨y, hy⟩ := get?_exists_of_lt
        (show t / 2 < h.inner.length by omega)
      by_cases hgt : h.compare x y = .gt
      · rw [BinaryHeap.float_swap h t x y h2 hlt hx hy hgt]
        have hlen : (h.swap_unchecked t (t / 2)).inner.length
            = h.inner.length := swapL_length _ _ _
        obtain ⟨h', hfl, hcomp, hhp⟩ :=
          ih (t / 2) (by omega) (h.swap_unchecked t (t / 2)) hcons
            (by omega) (by omega)
            (upHeapExcept_swap hcons h2 hx hy hgt hinv)
        exact ⟨h', hfl, hcomp, hhp⟩
      · refine ⟨h, BinaryHeap.float_stop h t x y h2 hlt hx hy hgt, rfl, ?_⟩
        intro i a b h1i ha hb
        by_cases hit : i = t
        · subst hit
          rw [hx] at ha
          rw [hy] at hb
          injection ha with ha'
          injection hb with hb'
          subst ha'
          subst hb'
          exact hgt
        · exact hinv.1 i a b h1i hit ha hb

theorem upHeapExcept_append {T : Type u} {cmp : T → T → Ordering}
    {l : List T} (v : T) (hhp : heapProp cmp l) :
    upHeapExcept cmp (l ++ [v]) l.length := by
  constructor
  · intro i a b h1 hneq ha hb
    have hilen : i < (l ++ [v]).length := (List.get?_eq_some.mp ha).1
    rw [List.length_append, List.length_singleton] at hilen
    have hil : i < l.length := by omega
    rw [List.get?_append hil] at ha
    rw [List.get?_append (by omega)] at hb
    exact hhp i a b h1 ha hb
  · intro c a b h1L hc2 ha hb
    have hclen : c < (l ++ [v]).length := (List.get?_eq_some.mp ha).1
    rw [List.length_append, List.length_singleton] at hclen
    omega

theorem push_spec {T : Type u} (h : BinaryHeap T) (v : T)
    (hne : h.inner ≠ []) :
    ∃ h'', h.push v = h'' ∧
      ({ h with inner := h.inner ++ [v] } : BinaryHeap T).float
        (h.inner.length) = .ok h'' ∧
      h''.inner.Perm (h.inner ++ [v]) ∧
      h''.inner.get? 0 = (h.inner ++ [v]).get? 0 ∧
      h''.compare = h.compare := by
  have hL : 1 ≤ h.inner.length := List.length_pos.mpr hne
  obtain ⟨h'', hfl, hperm, hzero, hcomp⟩ :=
    float_ok_results (h.inner.length)
      ({ h with inner := h.inner ++ [v] } : BinaryHeap T)
      (by omega) (by simp)
  refine ⟨h'', ?_, hfl, hperm, hzero, hcomp⟩
  unfold BinaryHeap.push
  have harg : (h.inner ++ [v]).length - 1 = h.inner.length := by simp
  simp only []
  rw [harg, hfl]

theorem push_heapProp {T : Type u} (h : BinaryHeap T) (v : T)
    (hcons : consistentWithTotalOrder h.compare) (hne : h.inner ≠ [])
    (hhp : heapProp h.compare h.inner) :
    heapProp h.compare (h.push v).inner ∧
      (h.push v).compare = h.compare ∧ (h.push v).inner ≠ [] := by
  have hL : 1 ≤ h.inner.length := List.length_pos.mpr hne
  obtain ⟨h'', hpush, hfl, hperm, hzero, hcomp⟩ := push_spec h v hne
  obtain ⟨h''2, hfl2, hcomp2, hhp2⟩ :=
    float_heapProp (h.inner.length)
      ({ h with inner := h.inner ++ [v] } : BinaryHeap T)
      hcons (by omega) (by simp) (upHeapExcept_append v hhp)
  rw [hfl] at hfl2
  injection hfl2 with heq
  subst heq
  rw [hpush]
  refine ⟨hhp2, hcomp, ?_⟩
  have hlen := hperm.length_eq
  rw [List.length_append, List.length_singleton] at hlen
  intro hempty
  rw [hempty] at hlen
  simp at hlen

theorem pushAll_heapProp {T : Type u} :
    ∀ (vs : List T) (h : BinaryHeap T),
      consistentWithTotalOrder h.compare → h.inner ≠ [] →
      heapProp h.compare h.inner →
      heapProp h.compare (BinaryHeap.pushAll h vs).inner ∧
        (BinaryHeap.pushAll h vs).compare = h.compare ∧
        (BinaryHeap.pushAll h vs).inner ≠ [] := by
  intro vs
  induction vs with
  | nil =>
    intro h hcons hne hhp
    exact ⟨hhp, rfl, hne⟩
  | cons v vs ih =>
    intro h hcons hne hhp
    obtain ⟨hhp', hcomp', hne'⟩ := push_heapProp h v hcons hne hhp
    have step : BinaryHeap.pushAll h (v :: vs)
        = BinaryHeap.pushAll (h.push v) vs := rfl
    rw [step]
    obtain ⟨ha, hb, hc⟩ := ih (h.push v) (by rw [hcomp']; exact hcons) hne'
      (by rw [hcomp']; exact hhp')
    rw [hcomp'] at ha hb
    exact ⟨ha, hb, hc⟩

/-- C1: for every comparator consistent with a total order and every
sequence of `push` operations starting from an empty heap produced by
`new`, for every logical index i > 1 within bounds,
`compare(element(i), element(parent(i)))` is never `Ordering::Greater` —
no child outranks its parent. -/
theorem heap_property_after_pushes {T : Type u} (cmp : T → T → Ordering)
    (hcons : consistentWithTotalOrder cmp) (sentinel : T) (vs : List T) :
    heapProp cmp (BinaryHeap.pushAll (BinaryHeap.new sentinel cmp) vs).inner := by
  have hbase : heapProp cmp (BinaryHeap.new sentinel cmp).inner := by
    intro i x y h1 hx hy
    have := (List.get?_eq_some.mp hx).1
    simp [BinaryHeap.new] at this
    omega
  exact (pushAll_heapProp vs (BinaryHeap.new sentinel cmp) hcons
    (by simp [BinaryHeap.new]) hbase).1

/-- Witness for C1 at the comparator `maxCmp` and the push sequence
5, 2, 3, 4 of the source's own test. -/
theorem heap_property_after_pushes_witness :
    heapProp maxCmp
      (BinaryHeap.pushAll (BinaryHeap.new (0 : Int) maxCmp) [5, 2, 3, 4]).inner :=
  heap_property_after_pushes maxCmp maxCmp_consistent 0 [5, 2, 3, 4]

/-- C10: for every heap with non-empty backing storage, `push(v)` leaves
the backing storage a permutation of the previous storage with `v`
appended; the sentinel at physical index 0 is unchanged and the length
grows by exactly one. -/
theorem push_permutation {T : Type u} (h : BinaryHeap T) (v : T)
    (hne : h.inner ≠ []) :
    (h.push v).inner.Perm (h.inner ++ [v]) ∧
      (h.push v).inner.get? 0 = h.inner.get? 0 ∧
      (h.push v).inner.length = h.inner.length + 1 := by
  obtain ⟨h'', hpush, hfl, hperm, hzero, hcomp⟩ := push_spec h v hne
  rw [hpush]
  refine ⟨hperm, ?_, ?_⟩
  · rw [hzero, List.get?_append (List.length_pos.mpr hne)]
  · rw [hperm.length_eq]
    simp

/-- Witness for C10 at the heap `[0, 5]` (sentinel `0`) and value `2`. -/
theorem push_permutation_witness :
    ((BinaryHeap.from_source_unchecked [0, 5] maxCmp).push 2).inner.Perm
        ([0, 5] ++ [2]) ∧
      ((BinaryHeap.from_source_unchecked [0, 5] maxCmp).push 2).inner.get? 0
        = ([0, 5] : List Int).get? 0 ∧
      ((BinaryHeap.from_source_unchecked [0, 5] maxCmp).push 2).inner.length
        = ([0, 5] : List Int).length + 1 :=
  push_permutation (BinaryHeap.from_source_unchecked [0, 5] maxCmp) 2
    (by simp [BinaryHeap.from_source_unchecked])

/-- C6: for every heap of size n ≥ 1 and logical index 1 ≤ i ≤ n,
`children(parent(i))` contains i whenever `parent(i)` succeeds, and
`parent` of each present child of i equals i. -/
theorem parent_children_consistency {T : Type u} (h : BinaryHeap T)
    (n i : Nat) (hs : h.inner.length = n + 1) (hn : 1 ≤ n) (h1 : 1 ≤ i)
    (hi : i ≤ n) :
    (∀ p, h.parent i = .ok p →
      ∃ lc rc, h.children p = .ok (lc, rc) ∧ (lc = some i ∨ rc = some i)) ∧
    (∀ lc rc, h.children i = .ok (lc, rc) →
      (∀ c, lc = some c → h.parent c = .ok i) ∧
      (∀ c, rc = some c → h.parent c = .ok i)) := by
  constructor
  · intro p hp
    rw [BinaryHeap.parent_ok_iff] at hp
    obtain ⟨rfl, h2, hlt⟩ := hp
    unfold BinaryHeap.children
    rw [BinaryHeap.check_ok h (i / 2) (by omega) (by omega)]
    refine ⟨_, _, rfl, ?_⟩
    rcases Nat.lt_or_ge (i / 2 * 2) i with hcase | hcase
    · right
      have hieq : i / 2 * 2 + 1 = i := by omega
      rw [hieq, BinaryHeap.check_ok h i (by omega) hlt]
      rfl
    · left
      have hieq : i / 2 * 2 = i := by omega
      rw [hieq, BinaryHeap.check_ok h i (by omega) hlt]
      rfl
  · intro lc rc hch
    unfold BinaryHeap.children at hch
    rw [BinaryHeap.check_ok h i (by omega) (by omega)] at hch
    injection hch with hch'
    injection hch' with hl hr
    constructor
    · intro c hc
      rw [← hl] at hc
      cases hcheck : h.check (i * 2) with
      | error e =>
        rw [hcheck] at hc
        exact absurd hc (by simp [Except.toOption])
      | ok j =>
        rw [hcheck] at hc
        rw [BinaryHeap.check_ok_iff] at hcheck
        obtain ⟨rfl, hz, hlt⟩ := hcheck
        simp only [Except.toOption] at hc
        injection hc with hc'
        subst hc'
        rw [BinaryHeap.parent_ok h (i * 2) (by omega) hlt]
        congr 1
        omega
    · intro c hc
      rw [← hr] at hc
      cases hcheck : h.check (i * 2 + 1) with
      | error e =>
        rw [hcheck] at hc
        exact absurd hc (by simp [Except.toOption])
      | ok j =>
        rw [hcheck] at hc
        rw [BinaryHeap.check_ok_iff] at hcheck
        obtain ⟨rfl, hz, hlt⟩ := hcheck
        simp only [Except.toOption] at hc
        injection hc with hc'
        subst hc'
        rw [BinaryHeap.parent_ok h (i * 2 + 1) (by omega) hlt]
        congr 1
        omega

/-- Witness for C6 on the source test heap `[0..8]` with 8 real elements,
at logical index 4. -/
theorem parent_children_consistency_witness :
    (∀ p, (BinaryHeap.from_source_unchecked [0, 1, 2, 3, 4, 5, 6, 7, 8]
        maxCmp).parent 4 = .ok p →
      ∃ lc rc, (BinaryHeap.from_source_unchecked [0, 1, 2, 3, 4, 5, 6, 7, 8]
        maxCmp).children p = .ok (lc, rc) ∧ (lc = some 4 ∨ rc = some 4)) ∧
    (∀ lc rc, (BinaryHeap.from_source_unchecked [0, 1, 2, 3, 4, 5, 6, 7, 8]
        maxCmp).children 4 = .ok (lc, rc) →
      (∀ c, lc = some c → (BinaryHeap.from_source_unchecked
        [0, 1, 2, 3, 4, 5, 6, 7, 8] maxCmp).parent c = .ok 4) ∧
      (∀ c, rc = some c → (BinaryHeap.from_source_unchecked
        [0, 1, 2, 3, 4, 5, 6, 7, 8] maxCmp).parent c = .ok 4)) :=
  parent_children_consistency
    (BinaryHeap.from_source_unchecked [0, 1, 2, 3, 4, 5, 6, 7, 8] maxCmp)
    8 4 (by simp [BinaryHeap.from_source_unchecked]) (by omega) (by omega)
    (by omega)

/-- C4 counterexample: on the heap produced by `new` (no real elements),
`parent(1)` does NOT fail with the no-parent kind — `check` rejects index
1 first, giving `OutOfBounds 1`. -/
theorem parent_one_on_empty_heap_cex :
    ¬ ((BinaryHeap.new (0 : Int) maxCmp).parent 1
        = .error ⟨.NoParent⟩) := by
  have heval : (BinaryHeap.new (0 : Int) maxCmp).parent 1
      = .error ⟨.OutOfBounds 1⟩ := rfl
  rw [heval]
  intro hcontra
  injection hcontra with h'
  injection h' with h''
  exact absurd h'' (by decide)

/-- C4 (amended): `parent`, `children`, `swap` on index 0 fail with the
zero-index kind and `get` returns the no-value case; on a non-zero index
at or beyond the backing length they fail with the out-of-bounds kind
carrying that index (`get` again returns none); `parent(1)` fails with
the no-parent kind when the heap holds at least one real element, and
with `OutOfBounds 1` on a heap with no real elements. -/
theorem bounds_errors {T : Type u} (h : BinaryHeap T) (i b : Nat) :
    (h.get 0 = none ∧ h.parent 0 = .error ⟨.ZeroIndex⟩ ∧
      h.children 0 = .error ⟨.ZeroIndex⟩ ∧ h.swap 0 b = .error ⟨.ZeroIndex⟩) ∧
    (i ≠ 0 → h.inner.length ≤ i →
      h.get i = none ∧ h.parent i = .error ⟨.OutOfBounds i⟩ ∧
      h.children i = .error ⟨.OutOfBounds i⟩ ∧
      h.swap i b = .error ⟨.OutOfBounds i⟩) ∧
    (1 < h.inner.length → h.parent 1 = .error ⟨.NoParent⟩) ∧
    (h.inner.length ≤ 1 → h.parent 1 = .error ⟨.OutOfBounds 1⟩) := by
  refine ⟨⟨?_, ?_, ?_, ?_⟩, ?_, ?_, ?_⟩
  · exact BinaryHeap.get_invalid h 0 (Or.inl rfl)
  · exact BinaryHeap.parent_err h 0 _ (BinaryHeap.check_zero h)
  · unfold BinaryHeap.children
    rw [BinaryHeap.check_zero h]
  · unfold BinaryHeap.swap
    rw [BinaryHeap.check_zero h]
  · intro h0 hge
    refine ⟨BinaryHeap.get_invalid h i (Or.inr hge),
      BinaryHeap.parent_err h i _ (BinaryHeap.check_oob h i h0 hge), ?_, ?_⟩
    · unfold BinaryHeap.children
      rw [BinaryHeap.check_oob h i h0 hge]
    · unfold BinaryHeap.swap
      rw [BinaryHeap.check_oob h i h0 hge]
  · intro hlt
    exact BinaryHeap.parent_one h hlt
  · intro hle
    exact BinaryHeap.parent_err h 1 _ (BinaryHeap.check_oob h 1 (by omega) hle)

/-- Witness for C4's amended theorem: the out-of-bounds clause at index 5
and the no-parent clause on the two-element heap `[0, 7]`, and the
`OutOfBounds 1` clause for `parent(1)` on the heap from `new`. -/
theorem bounds_errors_witness :
    ((BinaryHeap.from_source_unchecked [0, 7] maxCmp).get 5 = none ∧
      (BinaryHeap.from_source_unchecked [0, 7] maxCmp).parent 5
        = .error ⟨.OutOfBounds 5⟩ ∧
      (BinaryHeap.from_source_unchecked [0, 7] maxCmp).children 5
        = .error ⟨.OutOfBounds 5⟩ ∧
      (BinaryHeap.from_source_unchecked [0, 7] maxCmp).swap 5 1
        = .error ⟨.OutOfBounds 5⟩) ∧
    (BinaryHeap.from_source_unchecked [0, 7] maxCmp).parent 1
      = .error ⟨.NoParent⟩ ∧
    (BinaryHeap.new (0 : Int) maxCmp).parent 1 = .error ⟨.OutOfBounds 1⟩ :=
  ⟨(bounds_errors (BinaryHeap.from_source_unchecked [0, 7] maxCmp) 5 1).2.1
      (by decide) (by decide),
    (bounds_errors (BinaryHeap.from_source_unchecked [0, 7] maxCmp) 5 1).2.2.1
      (by decide),
    (bounds_errors (BinaryHeap.new (0 : Int) maxCmp) 5 1).2.2.2 (by decide)⟩

/-- C2 (code bug): `with_capacity` does not behave like `new` — its
backing vector is empty, with no sentinel slot; `end()` underflows
(modelled as `none`); a subsequent `push(7)` stores 7 at physical index 0
where it becomes the unaddressable sentinel slot, so `get(1)` returns
none instead of the pushed value. -/
theorem with_capacity_missing_sentinel_eval :
    (BinaryHeap.with_capacity 4 maxCmp : BinaryHeap Int).inner = [] ∧
    (BinaryHeap.with_capacity 4 maxCmp : BinaryHeap Int).endIdx = none ∧
    ((BinaryHeap.with_capacity 4 maxCmp).push (7 : Int)).inner = [7] ∧
    ((BinaryHeap.with_capacity 4 maxCmp).push (7 : Int)).get 1 = none := by
  have hpush : (BinaryHeap.with_capacity 4 maxCmp).push (7 : Int)
      = BinaryHeap.from_source_unchecked [7] maxCmp := by
    unfold BinaryHeap.push
    simp only [BinaryHeap.with_capacity, List.nil_append, List.length_cons,
      List.length_nil, Nat.sub_self]
    rw [BinaryHeap.float_entry_err _ 0 _ (BinaryHeap.check_zero _)]
    rfl
  refine ⟨rfl, rfl, ?_, ?_⟩
  · rw [hpush]
    rfl
  · rw [hpush]
    rfl

/-- C5 (code bug): `end()` on the heap produced by `with_capacity`
computes `0usize - 1`, an arithmetic underflow (a panic in a debug
build), modelled as `none`; on any heap with the sentinel present (`new`)
it returns normally. -/
theorem end_underflow_on_with_capacity :
    (BinaryHeap.with_capacity 3 maxCmp : BinaryHeap Int).endIdx = none ∧
    (BinaryHeap.new (0 : Int) maxCmp).endIdx = some 0 :=
  ⟨rfl, rfl⟩

set_option maxHeartbeats 1000000 in
/-- C7: pushing 5, 2, 3, 4 in order with the max-comparator yields backing
sequences (sentinel omitted) `[5]`, `[5,2]`, `[5,2,3]`, `[5,4,3,2]` after
each push. -/
theorem push_example_sequence :
    ((BinaryHeap.new (0 : Int) maxCmp).push 5).inner.tail = [5] ∧
    (((BinaryHeap.new (0 : Int) maxCmp).push 5).push 2).inner.tail
      = [5, 2] ∧
    ((((BinaryHeap.new (0 : Int) maxCmp).push 5).push 2).push 3).inner.tail
      = [5, 2, 3] ∧
    (((((BinaryHeap.new (0 : Int) maxCmp).push 5).push 2).push 3).push
        4).inner.tail = [5, 4, 3, 2] := by
  have s1 : (BinaryHeap.new (0 : Int) maxCmp).push 5
      = BinaryHeap.from_source_unchecked [0, 5] maxCmp := by
    simp [BinaryHeap.push, BinaryHeap.new, BinaryHeap.from_source_unchecked,
      BinaryHeap.float, BinaryHeap.check, BinaryHeap.parent, BinaryHeap.get,
      BinaryHeap.swap_unchecked, swapL, maxCmp]
  have s2 : (BinaryHeap.from_source_unchecked [0, 5] maxCmp).push 2
      = BinaryHeap.from_source_unchecked [0, 5, 2] maxCmp := by
    simp [BinaryHeap.push, BinaryHeap.from_source_unchecked,
      BinaryHeap.float, BinaryHeap.check, BinaryHeap.parent, BinaryHeap.get,
      BinaryHeap.swap_unchecked, swapL, maxCmp]
  have s3 : (BinaryHeap.from_source_unchecked [0, 5, 2] maxCmp).push 3
      = BinaryHeap.from_source_unchecked [0, 5, 2, 3] maxCmp := by
    simp [BinaryHeap.push, BinaryHeap.from_source_unchecked,
      BinaryHeap.float, BinaryHeap.check, BinaryHeap.parent, BinaryHeap.get,
      BinaryHeap.swap_unchecked, swapL, maxCmp]
  have s4 : (BinaryHeap.from_source_unchecked [0, 5, 2, 3] maxCmp).push 4
      = BinaryHeap.from_source_unchecked [0, 5, 4, 3, 2] maxCmp := by
    simp [BinaryHeap.push, BinaryHeap.from_source_unchecked,
      BinaryHeap.float, BinaryHeap.check, BinaryHeap.parent, BinaryHeap.get,
      BinaryHeap.swap_unchecked, swapL, maxCmp]
  rw [s1, s2, s3, s4]
  exact ⟨rfl, rfl, rfl, rfl⟩

theorem emit_eq_none {T : Type u} {it : DfsIter T} (h : it.next = none) :
    it.emit = [] := by
  rw [DfsIter.emit.eq_def]
  split
  · rfl
  · rename_i v it' heq
    rw [h] at heq
    cases heq

theorem emit_eq_some {T : Type u} {it : DfsIter T} {v : T} {it' : DfsIter T}
    (h : it.next = some (v, it')) : it.emit = v :: it'.emit := by
  rw [DfsIter.emit.eq_def]
  split
  · rename_i heq
    rw [h] at heq
    cases heq
  · rename_i w it2 heq
    rw [h] at heq
    injection heq with heq'
    cases heq'
    rfl

theorem emit_congr {T : Type u} {it it2 : DfsIter T}
    (h : it.next = it2.next) : it.emit = it2.emit := by
  cases hn : it2.next with
  | none => rw [emit_eq_none (h.trans hn), emit_eq_none hn]
  | some p =>
    cases p with
    | mk v it' => rw [emit_eq_some (h.trans hn), emit_eq_some hn]

theorem emit_stack_zero {T : Type u} :
    ∀ (n : BinaryTreeNode T) (rest : List (BinaryTreeNode T × Nat)),
      DfsIter.emit ⟨(n, 0) :: rest⟩
        = n.preorder ++ DfsIter.emit ⟨rest⟩ := by
  intro n
  induction n with
  | Leaf =>
    intro rest
    have h : DfsIter.next ⟨(.Leaf, 0) :: rest⟩ = DfsIter.next ⟨rest⟩ := by
      simp [DfsIter.next]
    rw [emit_congr h]
    simp [BinaryTreeNode.preorder]
  | Node v l r ihl ihr =>
    intro rest
    have h0 : DfsIter.next ⟨(.Node v l r, 0) :: rest⟩
        = some (v, ⟨(.Node v l r, 1) :: rest⟩) := by
      simp [DfsIter.next]
    rw [emit_eq_some h0]
    have h1 : DfsIter.next ⟨(.Node v l r, 1) :: rest⟩
        = DfsIter.next ⟨(l, 0) :: (.Node v l r, 2) :: rest⟩ := by
      simp [DfsIter.next, BinaryTreeNode.left]
    rw [emit_congr h1, ihl]
    have h2 : DfsIter.next ⟨(.Node v l r, 2) :: rest⟩
        = DfsIter.next ⟨(r, 0) :: (.Node v l r, 3) :: rest⟩ := by
      simp [DfsIter.next, BinaryTreeNode.right]
    rw [emit_congr h2, ihr]
    have h3 : DfsIter.next ⟨(.Node v l r, 3) :: rest⟩
        = DfsIter.next ⟨rest⟩ := by
      simp [DfsIter.next]
    rw [emit_congr h3]
    simp [BinaryTreeNode.preorder]

/-- C8: the iterative stack-and-state cursor produced by `dfs()` yields
exactly the sequence of the recursive pre-order definition — for each
`Node`, its own value, then the full traversal of the left subtree, then
of the right subtree, each value exactly once. -/
theorem dfs_emit_eq_preorder {T : Type u} (t : BinaryTree T) :
    DfsIter.emit t.dfs = t.root.preorder := by
  unfold BinaryTree.dfs
  rw [emit_stack_zero]
  rw [emit_eq_none (show DfsIter.next ⟨[]⟩ = none by simp [DfsIter.next])]
  simp

/-- C9: on the tree with root 0, left child 1 (children 3 and 4) and
right child 2, `dfs()` yields exactly `[0, 1, 3, 4, 2]`.  The model is
pure, so a second `dfs()` of the unmodified tree is the same value and
yields the identical sequence. -/
theorem dfs_example_tree :
    DfsIter.emit (BinaryTree.dfs
      ⟨.Node (0 : Int) (.Node 1 (BinaryTreeNode.mk1 3) (BinaryTreeNode.mk1 4))
        (BinaryTreeNode.mk1 2)⟩) = [0, 1, 3, 4, 2] := by
  unfold BinaryTree.dfs
  rw [emit_stack_zero]
  rw [emit_eq_none (show DfsIter.next ⟨[]⟩ = none by simp [DfsIter.next])]
  simp [BinaryTreeNode.preorder, BinaryTreeNode.mk1]

theorem maxChild_choice {T : Type u} (cmp : T → T → Ordering) (l : List T)
    (i : Nat) : maxChild cmp l i = 2 * i ∨ maxChild cmp l i = 2 * i + 1 := by
  unfold maxChild
  split
  · split
    · split
      · left
        rfl
      · right
        rfl
    · left
      rfl
  · left
    rfl

theorem maxChild_lt {T : Type u} (cmp : T → T → Ordering) {l : List T}
    {i : Nat} (h2 : 2 * i < l.length) : maxChild cmp l i < l.length := by
  unfold maxChild
  split
  · split
    · split
      · omega
      · assumption
    · omega
  · omega

theorem maxChild_dominates {T : Type u} {cmp : T → T → Ordering}
    (hcons : consistentWithTotalOrder cmp) {l : List T} {i o : Nat}
    (h2 : 2 * i < l.length) (ho : o = 2 * i ∨ o = 2 * i + 1)
    (holt : o < l.length) (hne : o ≠ maxChild cmp l i) {a z : T}
    (ha : l.get? o = some a) (hz : l.get? (maxChild cmp l i) = some z) :
    cmp a z ≠ .gt := by
  by_cases h21 : 2 * i + 1 < l.length
  · obtain ⟨lv, hlv⟩ := get?_exists_of_lt h2
    obtain ⟨rv, hrv⟩ := get?_exists_of_lt h21
    have hc : maxChild cmp l i = if cmp lv rv = .gt then 2 * i
        else 2 * i + 1 := by
      unfold maxChild
      rw [if_pos h21, hlv, hrv]
    by_cases hgt : cmp lv rv = .gt
    · rw [hc, if_pos hgt] at hz hne
      have hoeq : o = 2 * i + 1 := by omega
      subst hoeq
      rw [hrv] at ha
      injection ha with ha'
      subst ha'
      rw [hlv] at hz
      injection hz with hz'
      subst hz'
      exact consistent_asymm hcons hgt
    · rw [hc, if_neg hgt] at hz hne
      have hoeq : o = 2 * i := by omega
      subst hoeq
      rw [hlv] at ha
      injection ha with ha'
      subst ha'
      rw [hrv] at hz
      injection hz with hz'
      subst hz'
      exact hgt
  · have hc : maxChild cmp l i = 2 * i := by
      unfold maxChild
      rw [if_neg h21]
    rw [hc] at hne
    omega

theorem heapProp_of_sink_stop {T : Type u} {cmp : T → T → Ordering}
    (hcons : consistentWithTotalOrder cmp) {l : List T} {i : Nat} {x z : T}
    (h1 : 1 ≤ i) (h2 : 2 * i < l.length) (hx : l.get? i = some x)
    (hz : l.get? (maxChild cmp l i) = some z) (hgt : cmp x z = .gt)
    (hinv : downHeapExcept cmp l i) : heapProp cmp l := by
  intro j a b h1j ha hb
  by_cases hji : j / 2 = i
  · rw [hji, hx] at hb
    injection hb with hb'
    subst hb'
    by_cases hjc : j = maxChild cmp l i
    · rw [hjc, hz] at ha
      injection ha with ha'
      subst ha'
      exact consistent_asymm hcons hgt
    · have hdom : cmp a z ≠ .gt :=
        maxChild_dominates hcons h2 (by omega) (List.get?_eq_some.mp ha).1
          hjc ha hz
      exact consistent_trans hcons hdom (consistent_asymm hcons hgt)
  · exact hinv.1 j a b h1j hji ha hb

theorem heapProp_of_no_child {T : Type u} {cmp : T → T → Ordering}
    {l : List T} {i : Nat} (h2 : l.length ≤ 2 * i)
    (hinv : downHeapExcept cmp l i) : heapProp cmp l := by
  intro j a b h1j ha hb
  by_cases hji : j / 2 = i
  · have hjlt := (List.get?_eq_some.mp ha).1
    omega
  · exact hinv.1 j a b h1j hji ha hb

theorem downHeapExcept_swap {T : Type u} {cmp : T → T → Ordering}
    (hcons : consistentWithTotalOrder cmp) {l : List T} {i : Nat} {x z : T}
    (h1 : 1 ≤ i) (h2 : 2 * i < l.length) (hx : l.get? i = some x)
    (hz : l.get? (maxChild cmp l i) = some z) (hngt : cmp x z ≠ .gt)
    (hinv : downHeapExcept cmp l i) :
    downHeapExcept cmp (swapL l i (maxChild cmp l i)) (maxChild cmp l i) := by
  have hch := maxChild_choice cmp l i
  have hic : i < maxChild cmp l i := by omega
  have hc2 : maxChild cmp l i / 2 = i := by omega
  have G := swapL_get? hx hz
  constructor
  · intro j a b h1j hjc hja hjb
    rw [G j] at hja
    rw [G (j / 2)] at hjb
    by_cases hjceq : j = maxChild cmp l i
    · subst hjceq
      rw [if_pos rfl] at hja
      injection hja with hja'
      subst hja'
      rw [hc2, if_neg (by omega), if_pos rfl] at hjb
      injection hjb with hjb'
      subst hjb'
      exact hngt
    · by_cases hji : j = i
      · subst hji
        rw [if_neg (by omega), if_pos rfl] at hja
        injection hja with hja'
        subst hja'
        rw [if_neg (by omega), if_neg (by omega)] at hjb
        exact hinv.2 _ z b h1j hc2 hz hjb
      · rw [if_neg hjceq, if_neg hji] at hja
        by_cases hjhalf : j / 2 = i
        · rw [hjhalf, if_neg (by omega), if_pos rfl] at hjb
          injection hjb with hjb'
          subst hjb'
          exact maxChild_dominates hcons h2 (by omega)
            (List.get?_eq_some.mp hja).1 hjceq hja hz
        · rw [if_neg hjc, if_neg hjhalf] at hjb
          exact hinv.1 j a b h1j hjhalf hja hjb
  · intro j a b h1c hjc hja hjb
    rw [G j, if_neg (by omega), if_neg (by omega)] at hja
    rw [G (maxChild cmp l i / 2), hc2, if_neg (by omega), if_pos rfl] at hjb
    injection hjb with hjb'
    subst hjb'
    refine hinv.1 j a z (by omega) (by omega) hja ?_
    rw [hjc]
    exact hz

theorem sinkSpec_length {T : Type u} (cmp : T → T → Ordering) :
    ∀ (k : Nat) (l : List T) (i : Nat), l.length - i = k →
      (sinkSpec cmp l i).length = l.length := by
  intro k
  induction k using Nat.strong_induction_on with
  | _ k ih =>
    intro l i hk
    rw [sinkSpec.eq_def]
    split
    · rename_i hi
      split
      · rename_i x z hx hz
        split
        · rfl
        · have hch := maxChild_choice cmp l i
          have hlen : (swapL l i (maxChild cmp l i)).length = l.length :=
            swapL_length _ _ _
          rw [ih ((swapL l i (maxChild cmp l i)).length - maxChild cmp l i)
            (by rw [hlen]; omega) _ _ rfl, hlen]
      · rfl
    · rfl

theorem sinkSpec_heapProp {T : Type u} {cmp : T → T → Ordering}
    (hcons : consistentWithTotalOrder cmp) :
    ∀ (k : Nat) (l : List T) (i : Nat), l.length - i = k → 1 ≤ i →
      downHeapExcept cmp l i → heapProp cmp (sinkSpec cmp l i) := by
  intro k
  induction k using Nat.strong_induction_on with
  | _ k ih =>
    intro l i hk h1 hinv
    rw [sinkSpec.eq_def]
    split
    · rename_i hi
      split
      · rename_i x z hx hz
        split
        · rename_i hgt
          exact heapProp_of_sink_stop hcons h1 hi.2 hx hz hgt hinv
        · rename_i hngt
          have hch := maxChild_choice cmp l i
          have hlen := swapL_length l i (maxChild cmp l i)
          exact ih ((swapL l i (maxChild cmp l i)).length - maxChild cmp l i)
            (by rw [hlen]; omega) _ _ rfl (by omega)
            (downHeapExcept_swap hcons h1 hi.2 hx hz hngt hinv)
      · rename_i hbad
        exfalso
        obtain ⟨x, hx⟩ := get?_exists_of_lt
          (show i < l.length by omega)
        obtain ⟨z, hz⟩ := get?_exists_of_lt (maxChild_lt cmp hi.2)
        exact hbad x z hx hz
    · rename_i hni
      exact heapProp_of_no_child (by omega) hinv

theorem get?_dropLast_set {T : Type u} {l : List T} {last : T} {k : Nat}
    {v : T} (hk : ((l.set 1 last).dropLast).get? k = some v) (hne : k ≠ 1) :
    l.get? k = some v := by
  have hlen := (List.get?_eq_some.mp hk).1
  rw [List.length_dropLast] at hlen
  rw [List.dropLast_eq_take, List.get?_take (by omega)] at hk
  rw [List.get?_set_ne _ _ (Ne.symm hne)] at hk
  exact hk

theorem downHeapExcept_extract {T : Type u} {cmp : T → T → Ordering}
    {l : List T} {last : T} (hhp : heapProp cmp l) :
    downHeapExcept cmp ((l.set 1 last).dropLast) 1 := by
  constructor
  · intro j a b h1j hj1 hja hjb
    exact hhp j a b h1j (get?_dropLast_set hja (by omega))
      (get?_dropLast_set hjb (by omega))
  · intro j a b h11 _ _ _
    omega

/-- C3: the spec-mandated extract-top contract, settled against the
spec-modelled `extract_top` (the source's `sink` is `todo!()` and no
removal operation exists in src): an empty heap (no real elements) fails
with the dedicated empty-heap error (`Custom`); otherwise the root
element at logical index 1 is removed and returned, the root slot is
overwritten with the last element, the sequence shrinks by one, and the
replacement is sunk so that the heap property is restored. -/
theorem extract_top_contract {T : Type u} (h : BinaryHeap T)
    (hcons : consistentWithTotalOrder h.compare) :
    (h.inner.length ≤ 1 →
      h.extract_top = .error ⟨.Custom "remove from empty heap"⟩) ∧
    (∀ root, h.inner.get? 1 = some root → heapProp h.compare h.inner →
      ∃ last h', h.inner.getLast? = some last ∧
        h.extract_top = .ok (root, h') ∧
        h'.inner = sinkSpec h.compare ((h.inner.set 1 last).dropLast) 1 ∧
        h'.inner.length + 1 = h.inner.length ∧
        heapProp h.compare h'.inner) := by
  constructor
  · intro hle
    have hnone : h.inner.get? 1 = none := List.get?_len_le (by omega)
    unfold BinaryHeap.extract_top
    rw [hnone]
  · intro root hroot hhp
    have hlt : 1 < h.inner.length := (List.get?_eq_some.mp hroot).1
    obtain ⟨last, hlast⟩ := get?_exists_of_lt
      (show h.inner.length - 1 < h.inner.length by omega)
    have hgl : h.inner.getLast? = some last := by
      rw [List.getLast?_eq_get?]
      exact hlast
    refine ⟨last,
      BinaryHeap.mk (sinkSpec h.compare ((h.inner.set 1 last).dropLast) 1)
        h.compare,
      hgl, ?_, rfl, ?_, ?_⟩
    · unfold BinaryHeap.extract_top
      rw [hroot, hgl]
    · rw [sinkSpec_length h.compare
        (((h.inner.set 1 last).dropLast).length - 1) _ 1 rfl,
        List.length_dropLast, List.length_set]
      omega
    · exact sinkSpec_heapProp hcons
        (((h.inner.set 1 last).dropLast).length - 1) _ 1 rfl (by omega)
        (downHeapExcept_extract hhp)

/-- Witness for C3 on the heap `[0, 5, 4, 3, 2]` (sentinel 0, four real
elements) with the max-comparator: the root 5 is extracted. -/
theorem extract_top_contract_witness :
    ∃ last h',
      (BinaryHeap.from_source_unchecked ([0, 5, 4, 3, 2] : List Int)
        maxCmp).inner.getLast? = some last ∧
      (BinaryHeap.from_source_unchecked ([0, 5, 4, 3, 2] : List Int)
        maxCmp).extract_top = .ok (5, h') ∧
      h'.inner = sinkSpec maxCmp
        ((([0, 5, 4, 3, 2] : List Int).set 1 last).dropLast) 1 ∧
      h'.inner.length + 1 = ([0, 5, 4, 3, 2] : List Int).length ∧
      heapProp maxCmp h'.inner :=
  (extract_top_contract
    (BinaryHeap.from_source_unchecked ([0, 5, 4, 3, 2] : List Int) maxCmp)
    maxCmp_consistent).2 5 rfl (by decide)
